import Mathlib

/-!
Verification of the Feature-Model Graph Engine of the mini variability
visualizer.  The JavaScript sources are shallowly embedded: every
definition below is translated from a concrete function of the
repository (`buildHierarchy`, `searchFeatures`, `pathToRoot`,
`drawConstraints`, `applyHighlights`, the fit / align-center /
reset-zoom transform computations of `GraphView`).  Coordinates are
modelled as rationals; where JavaScript IEEE-754 special values matter
(division by zero in the fit-scale computation) an explicit `JsNum`
type with `Infinity` / `NaN` is used.
-/

namespace FMV

/-! ## Data model (§3 of the design)

A JS feature object: `{ id, label, type, parent }`.  `label` and
`parent` may be absent (`Option`); the empty string is the only other
falsy string value, mirroring JS truthiness tests such as
`!feature.parent`. -/

structure Feature where
  id : String
  label : Option String := none
  parent : Option String := none
  deriving Repr, DecidableEq

/-- JS falsiness of an optional string field: absent, or the empty
string. -/
def strFalsy : Option String → Bool
  | none => true
  | some s => s.isEmpty

/-! ## HierarchyBuilder (`buildHierarchy` in the GraphView sources) -/

/-- The engine-owned tree node: a feature id together with the ordered
children list (`{ ...feature, children: [] }` filled by the second pass
of `buildHierarchy`, then wrapped by `d3.hierarchy`). -/
inductive TNode where
  | node : String → List TNode → TNode

/-- Root id of a tree node. -/
def TNode.tid : TNode → String
  | .node i _ => i

/-- Children of a tree node. -/
def TNode.children : TNode → List TNode
  | .node _ cs => cs

/-- The ids present in the feature list (the keys of `featureById`). -/
def featureIds (features : List Feature) : List String :=
  features.map (·.id)

/-- The second pass of `buildHierarchy`: the features appended to the
children list of the node with id `pid`.  A feature is appended exactly
when `feature.parent && featureById[feature.parent]` holds, i.e. its
parent field is a truthy string that is a key of the mapping, and that
key equals `pid`. -/
def childFeatures (features : List Feature) (pid : String) : List Feature :=
  features.filter (fun f =>
    match f.parent with
    | some p => !p.isEmpty && p == pid && (featureIds features).contains p
    | none => false)

/-- A root candidate in the sense of the source: `!feature.parent`. -/
def isRootCandidate (f : Feature) : Bool :=
  strFalsy f.parent

/-- Recursive construction of the tree below the node with id `i`
(the traversal `d3.hierarchy` performs over the `children` lists built
by `buildHierarchy`).  The recursion is bounded by a fuel argument;
`buildHierarchy` passes `features.length`, which bounds the depth of
the reachable (necessarily acyclic) part of the child graph. -/
def buildNode (features : List Feature) : Nat → String → TNode
  | 0, i => .node i []
  | n + 1, i => .node i ((childFeatures features i).map (fun f => buildNode features n f.id))

/-- `buildHierarchy`: select the first feature with a falsy `parent`
(`model.features.find((feature) => !feature.parent)`) as root and
return the tree hanging from it, or `null` when there is none. -/
def buildHierarchy (features : List Feature) : Option TNode :=
  match features.find? (fun f => isRootCandidate f) with
  | some rootFeature => some (buildNode features features.length rootFeature.id)
  | none => none

mutual

/-- All ids occurring in a tree. -/
def treeIds : TNode → List String
  | .node i cs => i :: treeIdsList cs

/-- All ids occurring in a forest. -/
def treeIdsList : List TNode → List String
  | [] => []
  | t :: ts => treeIds t ++ treeIdsList ts

end

/-! ## SearchIndex (`src/core/search.js`) -/

/-- `(f.label || f.id)`: the label when it is truthy, the id
otherwise. -/
def labelOrId (f : Feature) : String :=
  match f.label with
  | some s => if s.isEmpty then f.id else s
  | none => f.id

/-- JS `String.toLowerCase`, character by character (the sources only
ever compare ASCII here). -/
def jsToLower (s : String) : String :=
  ⟨s.data.map Char.toLower⟩

/-- JS `String.trim`: drop whitespace from both ends. -/
def jsTrim (s : String) : String :=
  ⟨((s.data.dropWhile Char.isWhitespace).reverse.dropWhile
      Char.isWhitespace).reverse⟩

/-- Substring containment over character lists: some suffix of `l` has
`q` as a prefix.  This is the semantics of JS `String.includes`. -/
def listContains (q : List Char) : List Char → Bool
  | [] => q.isEmpty
  | c :: rest => q.isPrefixOf (c :: rest) || listContains q rest

/-- `s.includes(q)` on strings. -/
def strIncludes (s q : String) : Bool :=
  listContains q.toList s.toList

/-- `searchFeatures(features, keyword)` from `src/core/search.js`:
trim and lowercase the keyword, return `[]` when the result is falsy,
otherwise the ids of the features whose `label || id`, lowercased,
contains it. -/
def searchFeatures (features : List Feature) (keyword : String) : List String :=
  let q := jsToLower (jsTrim keyword)
  if q.isEmpty then []
  else (features.filter (fun f => strIncludes (jsToLower (labelOrId f)) q)).map (·.id)

/-! ## pathToRoot (`src/core/search.js`)

The `while (cur && parentMap.has(cur))` loop is modelled with an
explicit fuel of `parentMap.size + 1`; `none` means the fuel ran out,
which we prove cannot happen when the parent chain is acyclic.  The
accumulator is kept in reversed (root-first) order, which is what the
final `path.reverse()` of the source returns. -/

/-- The parent map, as an association list (`Map` in the source;
`lookup` is `get`, `isSome` of it is `has`). -/
abbrev ParentMap := List (String × String)

/-- The loop guard `cur && parentMap.has(cur)`. -/
def stepOkB (m : ParentMap) (cur : String) : Bool :=
  !cur.isEmpty && (m.lookup cur).isSome

/-- `parentMap.get(cur)` (the loop only calls it under the guard). -/
def pmGet (m : ParentMap) (cur : String) : String :=
  (m.lookup cur).getD ""

/-- The while loop of `pathToRoot`, fuel-bounded.  On normal exit the
final `if (cur) path.push(cur)` pushes the root when it is truthy. -/
def loopGo (m : ParentMap) : Nat → String → List String → Option (List String)
  | 0, _, _ => none
  | fuel + 1, cur, path =>
    if stepOkB m cur then loopGo m fuel (pmGet m cur) (cur :: path)
    else some (if cur.isEmpty then path else cur :: path)

/-- `pathToRoot(targetId, parentMap)`. -/
def pathToRoot (targetId : String) (m : ParentMap) : Option (List String) :=
  loopGo m (m.length + 1) targetId []

/-- The successive loop variables while the guard holds (the chain of
parent pointers starting from the target), fuel-bounded. -/
def traceGo (m : ParentMap) : Nat → String → List String
  | 0, _ => []
  | fuel + 1, cur =>
    if stepOkB m cur then cur :: traceGo m fuel (pmGet m cur) else []

/-- The parent-pointer chain examined by `pathToRoot`. -/
def chainTrace (m : ParentMap) (targetId : String) : List String :=
  traceGo m (m.length + 1) targetId

/-! ## HighlightPropagator (`applyHighlights` in the GraphView sources)

d3 hierarchy nodes are identified by their path from the root (the
list of child indices); `node.ancestors()` is the set of prefixes of
the path, `node.descendants()` the set of valid extensions. -/

mutual

/-- All node paths of a tree: the empty path (the node itself) and,
for the `i`-th child, its paths prefixed with `i`. -/
def pathsOf : TNode → List (List Nat)
  | .node _ cs => [] :: pathsOfChildren 0 cs

/-- Paths into a forest, the children being numbered from `i`
upwards. -/
def pathsOfChildren : Nat → List TNode → List (List Nat)
  | _, [] => []
  | i, c :: rest => (pathsOf c).map (fun p => i :: p) ++ pathsOfChildren (i + 1) rest

end

/-- The subtree at a path, when the path is valid. -/
def subtreeAt : TNode → List Nat → Option TNode
  | t, [] => some t
  | t, i :: p =>
    match t.children.get? i with
    | some c => subtreeAt c p
    | none => none

/-- The id of the node at a path. -/
def idAt (root : TNode) (p : List Nat) : Option String :=
  (subtreeAt root p).map TNode.tid

/-- `node.ancestors()` as paths: every prefix of the node's path,
the node itself included. -/
def ancestorPathsOf (p : List Nat) : List (List Nat) :=
  p.inits

/-- `node.descendants()` as paths: every valid path extending the
node's path, the node itself included. -/
def descendantPathsFrom (root : TNode) (p : List Nat) : List (List Nat) :=
  (pathsOf root).filter (fun q => p.isPrefixOf q)

/-- The `relatedNodes` set of `applyHighlights`: traverse all nodes,
and for each one whose id is in `highlightedIds` add the node, its
ancestors and its descendants. -/
def relatedPaths (root : TNode) (highlightedIds : List String) : List (List Nat) :=
  (pathsOf root).flatMap (fun p =>
    if (idAt root p).any (fun s => highlightedIds.contains s) then
      ancestorPathsOf p ++ descendantPathsFrom root p
    else [])

/-- The visual state `applyHighlights` mutates: per-node stroke colour
and width (keyed by node path), per-link stroke colour (keyed by the
child endpoint's path). -/
structure VisualState where
  nodeStroke : List Nat → String
  nodeStrokeWidth : List Nat → ℚ
  linkStroke : List Nat → String

/-- `applyHighlights`: early return (no change at all) when
`highlightedIds` is empty, otherwise recolour every node and link from
the matched set and the related closure. -/
def applyHighlights (root : TNode) (highlightedIds : List String)
    (vs : VisualState) : VisualState :=
  if highlightedIds.isEmpty then vs
  else
    { nodeStroke := fun p =>
        if (idAt root p).any (fun s => highlightedIds.contains s) then "#e53935"
        else if p ∈ relatedPaths root highlightedIds then "#f48fb1"
        else "#fff"
      nodeStrokeWidth := fun p =>
        if (idAt root p).any (fun s => highlightedIds.contains s) then 5
        else if p ∈ relatedPaths root highlightedIds then 3
        else 2
      linkStroke := fun p =>
        if p.dropLast ∈ relatedPaths root highlightedIds ∧
            p ∈ relatedPaths root highlightedIds then "#f48fb1"
        else "#bbb" }

/-! ## ConstraintOverlay (`drawConstraints` in the GraphView sources) -/

/-- A 2D point; coordinates are rationals (the layout produces exact
dyadic values, so nothing is lost against IEEE doubles here). -/
structure Pt where
  x : ℚ
  y : ℚ
  deriving Repr, DecidableEq

/-- A constraint `{ a, b, type }`. -/
structure Constraint where
  a : String
  b : String
  kind : String
  deriving Repr, DecidableEq

/-- `Math.max(80, Math.abs(sourceNode.y - targetNode.y) / 3)`. -/
def controlMagnitude (s t : Pt) : ℚ :=
  max 80 (|s.y - t.y| / 3)

/-- The three points handed to the d3 line generator for one
constraint: source, midpoint raised by the control magnitude,
target. -/
def constraintCurve (s t : Pt) : List Pt :=
  [s, ⟨(s.x + t.x) / 2, (s.y + t.y) / 2 - controlMagnitude s t⟩, t]

/-- What `drawConstraints` emits for one resolved constraint: the
curve path and the two endpoint marker circles, each styled from the
constraint's kind. -/
structure Overlay where
  src : Pt
  dst : Pt
  kind : String
  curve : List Pt
  endpoints : List Pt
  deriving Repr, DecidableEq

/-- The overlay for one constraint whose endpoints resolved to the
positions `s` and `t`. -/
def emitOverlay (c : Constraint) (s t : Pt) : Overlay :=
  ⟨s, t, c.kind, constraintCurve s t, [s, t]⟩

/-- `drawConstraints`, geometry part: for every constraint look up
both endpoints in `nodeById` and silently skip it
(`if (!sourceNode || !targetNode) return`) unless both resolve.  The
function is total: it never throws. -/
def computeOverlay (constraints : List Constraint)
    (positionedById : String → Option Pt) : List Overlay :=
  constraints.filterMap (fun c =>
    match positionedById c.a, positionedById c.b with
    | some s, some t => some (emitOverlay c s t)
    | _, _ => none)

/-- Whether both endpoints of a constraint resolve. -/
def resolves (positionedById : String → Option Pt) (c : Constraint) : Bool :=
  (positionedById c.a).isSome && (positionedById c.b).isSome

/-- The overlay of a constraint, with a junk value on the (skipped)
unresolved case; used only to state that `computeOverlay` equals the
resolved constraints mapped through `emitOverlay`. -/
def emitOverlayD (positionedById : String → Option Pt) (c : Constraint) : Overlay :=
  match positionedById c.a, positionedById c.b with
  | some s, some t => emitOverlay c s t
  | _, _ => ⟨⟨0, 0⟩, ⟨0, 0⟩, c.kind, [], []⟩

/-! ## ViewportTransform (`handleAlignCenter` / `handleResetZoom`)

A d3 zoom transform `{ x, y, k }` acts on a content point `p` as
`k • p + (x, y)`; `d3.zoomIdentity.translate(tx, ty).scale(k)` is the
transform `{ x := tx, y := ty, k := k }`. -/

structure Transform where
  x : ℚ
  y : ℚ
  k : ℚ
  deriving Repr, DecidableEq

/-- Application of a zoom transform to a content point. -/
def applyT (t : Transform) (p : Pt) : Pt :=
  ⟨t.k * p.x + t.x, t.k * p.y + t.y⟩

/-- An axis-aligned bounding box (`getBBox()` result). -/
structure BBox where
  x : ℚ
  y : ℚ
  width : ℚ
  height : ℚ
  deriving Repr, DecidableEq

/-- Centre of a bounding box. -/
def bboxCenter (b : BBox) : Pt :=
  ⟨b.x + b.width / 2, b.y + b.height / 2⟩

/-- `handleAlignCenter`: keep the current scale, recompute the
translation from the bounding box and the view size. -/
def alignCenter (current : Transform) (bbox : BBox)
    (viewWidth viewHeight : ℚ) : Transform :=
  let k := current.k
  { x := (viewWidth - bbox.width * k) / 2 - bbox.x * k
    y := (viewHeight - bbox.height * k) / 2 - bbox.y * k
    k := k }

/-- `handleResetZoom`: convert the viewport centre to content
coordinates under the current transform, then re-derive the
translation at the default (fit) scale so that point stays fixed. -/
def resetZoom (current : Transform) (defaultScale : ℚ)
    (centerX centerY : ℚ) : Transform :=
  let graphCenterX := (centerX - current.x) / current.k
  let graphCenterY := (centerY - current.y) / current.k
  { x := centerX - graphCenterX * defaultScale
    y := centerY - graphCenterY * defaultScale
    k := defaultScale }

/-! ## JS numbers for the fit-scale computation

The initial fit transform divides by the bounding-box extent with no
guard, so the IEEE-754 special values matter; `JsNum` models a JS
number as a rational or one of `Infinity`, `-Infinity`, `NaN`. -/

inductive JsNum where
  | num : ℚ → JsNum
  | posInf : JsNum
  | negInf : JsNum
  | nan : JsNum
  deriving Repr, DecidableEq

/-- JS division (zero is `+0`, so `a / 0` is `±Infinity` for
nonzero `a` and `NaN` for `a = 0`). -/
def jsDiv : JsNum → JsNum → JsNum
  | .num a, .num b =>
    if b ≠ 0 then .num (a / b)
    else if a > 0 then .posInf
    else if a < 0 then .negInf
    else .nan
  | .num _, .posInf => .num 0
  | .num _, .negInf => .num 0
  | .posInf, .num b => if b ≥ 0 then .posInf else .negInf
  | .negInf, .num b => if b ≥ 0 then .negInf else .posInf
  | .posInf, .posInf => .nan
  | .posInf, .negInf => .nan
  | .negInf, .posInf => .nan
  | .negInf, .negInf => .nan
  | .nan, _ => .nan
  | _, .nan => .nan

/-- JS `Math.min` (`NaN` propagates; otherwise the usual order with
the infinities at the ends). -/
def jsMin : JsNum → JsNum → JsNum
  | .nan, _ => .nan
  | _, .nan => .nan
  | .negInf, _ => .negInf
  | _, .negInf => .negInf
  | .posInf, b => b
  | a, .posInf => a
  | .num a, .num b => .num (min a b)

/-- JS multiplication. -/
def jsMul : JsNum → JsNum → JsNum
  | .nan, _ => .nan
  | _, .nan => .nan
  | .num a, .num b => .num (a * b)
  | .posInf, .num b => if b > 0 then .posInf else if b < 0 then .negInf else .nan
  | .num a, .posInf => if a > 0 then .posInf else if a < 0 then .negInf else .nan
  | .negInf, .num b => if b > 0 then .negInf else if b < 0 then .posInf else .nan
  | .num a, .negInf => if a > 0 then .negInf else if a < 0 then .posInf else .nan
  | .posInf, .posInf => .posInf
  | .posInf, .negInf => .negInf
  | .negInf, .posInf => .negInf
  | .negInf, .negInf => .posInf

/-- Whether a JS number is finite. -/
def JsNum.isFinite : JsNum → Bool
  | .num _ => true
  | _ => false

/-- The initial fit-to-view scale of `GraphView`:
`Math.min(viewWidth / boundingBox.width, viewHeight / boundingBox.height) * 0.8`
— translated verbatim; there is no guard on a zero-extent bounding
box. -/
def fitScale (viewWidth viewHeight bbWidth bbHeight : JsNum) : JsNum :=
  jsMul (jsMin (jsDiv viewWidth bbWidth) (jsDiv viewHeight bbHeight))
    (.num (4 / 5))

/-! ## Claim-side notions -/

/-- The notion of root candidate used by the claim about root
selection: a feature with no (falsy) parent, or one whose declared
parent id does not exist in the mapping. -/
def claimRootCandidate (features : List Feature) (f : Feature) : Bool :=
  match f.parent with
  | none => true
  | some p => p.isEmpty || !((featureIds features).contains p)

/-- `searchFeatures` as the spec describes it: trim and lowercase the
query; an empty query yields the empty result; otherwise keep, in
input order, the ids of the features such that the query is a
substring (`List.IsInfix` on the characters) of the lowercased
`label`-falling-back-to-`id`. -/
def searchSpec (features : List Feature) (keyword : String) : List String :=
  let q := jsToLower (jsTrim keyword)
  if q.isEmpty then []
  else (features.filter (fun f =>
    decide (q.data <:+: (jsToLower (labelOrId f)).data))).map (·.id)

/-! ## Lemmas about the hierarchy builder -/

theorem tid_buildNode (features : List Feature) (n : Nat) (i : String) :
    (buildNode features n i).tid = i := by
  cases n <;> rfl

theorem mem_treeIdsList {x : String} {ts : List TNode} :
    x ∈ treeIdsList ts ↔ ∃ t ∈ ts, x ∈ treeIds t := by
  induction ts with
  | nil => simp [treeIdsList]
  | cons t ts ih => simp [treeIdsList, ih]

theorem mem_treeIds_buildNode (features : List Feature) :
    ∀ (n : Nat) (i x : String), x ∈ treeIds (buildNode features n i) →
      x = i ∨ ∃ g ∈ features, g.id = x ∧
        ∃ p, g.parent = some p ∧ p.isEmpty = false ∧ p ∈ featureIds features := by
  intro n
  induction n with
  | zero =>
    intro i x hx
    simp [buildNode, treeIds, treeIdsList] at hx
    exact Or.inl hx
  | succ n ih =>
    intro i x hx
    simp only [buildNode, treeIds, List.mem_cons, mem_treeIdsList, List.mem_map] at hx
    rcases hx with rfl | ⟨t, ⟨f, hf, rfl⟩, hxt⟩
    · exact Or.inl rfl
    · rcases ih f.id x hxt with rfl | h
      · right
        rcases List.mem_filter.mp hf with ⟨hfmem, hpred⟩
        cases hfp : f.parent with
        | none => simp [hfp] at hpred
        | some p =>
          simp only [hfp, Bool.and_eq_true, beq_iff_eq, Bool.not_eq_true'] at hpred
          obtain ⟨⟨hpe, rfl⟩, hpc⟩ := hpred
          exact ⟨f, hfmem, rfl, p, hfp, hpe, by simpa using hpc⟩
      · exact Or.inr h

/-- C7: `buildHierarchy` returns `null` exactly when the feature list
is empty or has no root candidate (no feature with a falsy parent),
and it never fails on malformed input: any tree it does return only
contains ids of the input features (malformed input degrades to a
smaller tree).  The embedded function is total, mirroring that the
source never throws. -/
theorem buildHierarchy_null_iff_and_degrades :
    ∀ features : List Feature,
      (buildHierarchy features = none ↔
        (features = [] ∨ ∀ f ∈ features, isRootCandidate f = false)) ∧
      ∀ t, buildHierarchy features = some t → treeIds t ⊆ featureIds features := by
  intro features
  constructor
  · unfold buildHierarchy
    cases h : features.find? (fun f => isRootCandidate f) with
    | none =>
      simp only [true_iff]
      exact Or.inr fun f hf => by
        simpa using List.find?_eq_none.mp h f hf
    | some rf =>
      simp only [reduceCtorEq, false_iff]
      intro hor
      have hmem := List.mem_of_find?_eq_some h
      have hpred := List.find?_some h
      rcases hor with rfl | hall
      · simp at hmem
      · simp [hall rf hmem] at hpred
  · intro t ht
    unfold buildHierarchy at ht
    cases h : features.find? (fun f => isRootCandidate f) with
    | none => simp [h] at ht
    | some rf =>
      rw [h] at ht
      injection ht with ht
      subst ht
      intro x hx
      rcases mem_treeIds_buildNode features features.length rf.id x hx with rfl | ⟨g, hg, rfl, _⟩
      · exact List.mem_map_of_mem _ (List.mem_of_find?_eq_some h)
      · exact List.mem_map_of_mem _ hg

/-- The concrete input refuting C1: the first feature's declared
parent `"zzz"` exists nowhere, the second has no parent. -/
def c1Features : List Feature :=
  [{ id := "a", parent := some "zzz" }, { id := "b" }]

/-- C1 counterexample: on `c1Features`, the first root candidate in
the claim's sense (dangling parents included) is the feature `"a"`,
but `buildHierarchy` selects `"b"` as tree root: a feature with a
dangling parent id is never eligible for root selection. -/
theorem c1_first_claim_candidate_not_selected :
    (c1Features.find? (fun f => claimRootCandidate c1Features f)).map (·.id) = some "a" ∧
    (buildHierarchy c1Features).map TNode.tid = some "b" ∧
    (buildHierarchy c1Features).map TNode.tid ≠
      (c1Features.find? (fun f => claimRootCandidate c1Features f)).map (·.id) := by
  refine ⟨by decide, by decide, by decide⟩

/-- C1 (amended): `buildHierarchy` selects as tree root the first
feature with a falsy parent in input order; a dangling-parent feature
is never selected as root, and — like every unselected root candidate
— is excluded from the resulting tree (assuming the model invariant
that ids are unique). -/
theorem buildHierarchy_first_null_parent_wins
    (features : List Feature) (rf : Feature)
    (hfind : features.find? (fun f => isRootCandidate f) = some rf)
    (hids : (featureIds features).Nodup) :
    ∃ t, buildHierarchy features = some t ∧ t.tid = rf.id ∧
      ∀ f ∈ features, claimRootCandidate features f = true → f.id ≠ rf.id →
        f.id ∉ treeIds t := by
  refine ⟨buildNode features features.length rf.id, ?_, tid_buildNode .., ?_⟩
  · unfold buildHierarchy
    rw [hfind]
  · intro f hf hcand hne hx
    rcases mem_treeIds_buildNode features features.length rf.id f.id hx with h | ⟨g, hg, hgid, p, hp, hpe, hpm⟩
    · exact hne h
    · have hgf : g = f := List.inj_on_of_nodup_map hids hg hf hgid
      subst hgf
      simp only [claimRootCandidate, hp, Bool.or_eq_true, Bool.not_eq_true'] at hcand
      rcases hcand with hcand | hcand
      · simp [hcand] at hpe
      · simp [hpm] at hcand

/-- Concrete input for the witness of the amended C1: a first root
`"r"`, a second (dropped) root candidate `"s"`, a dangling-parent
feature `"d"`, and a genuine child `"c"`. -/
def c1wFeatures : List Feature :=
  [{ id := "r" }, { id := "s" }, { id := "d", parent := some "q" },
   { id := "c", parent := some "r" }]

theorem buildHierarchy_first_null_parent_wins_witness :
    ∃ t, buildHierarchy c1wFeatures = some t ∧ t.tid = ({ id := "r" } : Feature).id ∧
      ∀ f ∈ c1wFeatures, claimRootCandidate c1wFeatures f = true →
        f.id ≠ ({ id := "r" } : Feature).id → f.id ∉ treeIds t :=
  buildHierarchy_first_null_parent_wins c1wFeatures { id := "r" } (by decide) (by decide)

/-! ## Lemmas about search -/

theorem listContains_iff (q : List Char) :
    ∀ l : List Char, listContains q l = true ↔ q <:+: l := by
  intro l
  induction l with
  | nil =>
    simp only [listContains, List.isEmpty_iff, List.infix_nil]
  | cons c rest ih =>
    simp only [listContains, Bool.or_eq_true, ih, List.isPrefixOf_iff_prefix,
      List.infix_cons_iff]

theorem strIncludes_iff (s q : String) :
    strIncludes s q = true ↔ q.data <:+: s.data := by
  simpa [strIncludes] using listContains_iff q.toList s.toList

/-- C3: `searchFeatures` trims and lowercases the query; a query that
is empty after trimming yields the empty result; otherwise the result
is, in input order, the ids of exactly those features for which the
query is a substring of the lowercased label (falling back to the id
when the label is empty or absent).  In particular the search is
case-insensitive and search on the empty list is empty. -/
theorem searchFeatures_correct :
    ∀ (features : List Feature) (keyword : String),
      searchFeatures features keyword = searchSpec features keyword ∧
      searchFeatures [] keyword = [] ∧
      searchFeatures [{ id := "a", label := some "Hello" }] "HELLO" = ["a"] := by
  intro features keyword
  refine ⟨?_, ?_, by decide⟩
  · unfold searchFeatures searchSpec
    by_cases hq : (jsToLower (jsTrim keyword)).isEmpty
    · simp [hq]
    · simp only [hq, if_neg, Bool.false_eq_true, not_false_eq_true]
      congr 1
      apply List.filter_congr
      intro f _
      rw [Bool.eq_iff_iff, strIncludes_iff]
      simp
  · unfold searchFeatures
    simp

/-! ## Constraint overlay theorems -/

/-- C6: `drawConstraints` silently skips every constraint for which
either endpoint id fails to resolve in the positioned-node mapping,
and emits, in input order, exactly one overlay for every constraint
whose endpoints both resolve.  The embedded computation is a total
function: it never throws. -/
theorem computeOverlay_skips_unresolved :
    ∀ (constraints : List Constraint) (positionedById : String → Option Pt),
      computeOverlay constraints positionedById =
        ((constraints.filter (resolves positionedById)).map
          (emitOverlayD positionedById)) := by
  intro constraints positionedById
  induction constraints with
  | nil => rfl
  | cons c cs ih =>
    by_cases ha : (positionedById c.a).isSome
    · by_cases hb : (positionedById c.b).isSome
      · obtain ⟨s, hs⟩ := Option.isSome_iff_exists.mp ha
        obtain ⟨t, ht⟩ := Option.isSome_iff_exists.mp hb
        simp [computeOverlay, resolves, emitOverlayD, hs, ht, List.filter_cons,
          List.filterMap_cons] at ih ⊢
        exact ih
      · obtain ⟨s, hs⟩ := Option.isSome_iff_exists.mp ha
        rw [Option.not_isSome_iff_eq_none] at hb
        simp [computeOverlay, resolves, hs, hb, List.filter_cons,
          List.filterMap_cons] at ih ⊢
        exact ih
    · rw [Option.not_isSome_iff_eq_none] at ha
      simp [computeOverlay, resolves, ha, List.filter_cons,
        List.filterMap_cons] at ih ⊢
      exact ih

/-- The middle control point of an overlay's curve. -/
def midControl (o : Overlay) : Pt :=
  o.curve.getD 1 ⟨0, 0⟩

/-- Midpoint of the chord between an overlay's endpoints. -/
def chordMid (o : Overlay) : Pt :=
  ⟨(o.src.x + o.dst.x) / 2, (o.src.y + o.dst.y) / 2⟩

/-- Vector difference of two points. -/
def ptSub (p q : Pt) : Pt :=
  ⟨p.x - q.x, p.y - q.y⟩

/-- Dot product. -/
def dotQ (p q : Pt) : ℚ :=
  p.x * q.x + p.y * q.y

/-- The perpendicularity asserted by the overlay claim: the emitted
middle control point is offset from the chord midpoint along a
direction perpendicular to the chord. -/
def perpOffsetHolds (o : Overlay) : Prop :=
  dotQ (ptSub (midControl o) (chordMid o)) (ptSub o.dst o.src) = 0

instance (o : Overlay) : Decidable (perpOffsetHolds o) := by
  unfold perpOffsetHolds; infer_instance

/-- The concrete input refuting the perpendicular-offset part of the
curve claim: a vertical chord from (0,0) to (0,200). -/
def cxConstraint : Constraint := ⟨"a", "b", "excludes"⟩

/-- Positioned nodes for the counterexample. -/
def cxPos : String → Option Pt := fun i =>
  if i = "a" then some ⟨0, 0⟩ else if i = "b" then some ⟨0, 200⟩ else none

/-- C5 counterexample: for the vertical chord (0,0)–(0,200) the
emitted curve's middle control point is (0,20) — the chord midpoint
(0,100) moved straight up by max(80, |Δy|/3) = 80 — and that offset is
parallel to the chord, not perpendicular to it. -/
theorem constraintCurve_offset_not_perpendicular :
    computeOverlay [cxConstraint] cxPos =
      [emitOverlay cxConstraint ⟨0, 0⟩ ⟨0, 200⟩] ∧
    midControl (emitOverlay cxConstraint ⟨0, 0⟩ ⟨0, 200⟩) = ⟨0, 20⟩ ∧
    ¬ perpOffsetHolds (emitOverlay cxConstraint ⟨0, 0⟩ ⟨0, 200⟩) := by
  refine ⟨rfl, ?_, ?_⟩
  · simp [midControl, emitOverlay, constraintCurve, controlMagnitude]
    norm_num
  · simp only [perpOffsetHolds, midControl, chordMid, ptSub, dotQ, emitOverlay,
      constraintCurve, controlMagnitude]
    norm_num

/-- C5 (amended): for every constraint whose endpoints both resolve,
the emitted overlay's curve has exactly three control points — the two
endpoint positions, and the chord midpoint offset vertically upward
(not perpendicular to the chord) by max(80, |Δy|/3). -/
theorem computeOverlay_curve_three_points
    (constraints : List Constraint) (positionedById : String → Option Pt)
    (c : Constraint) (s t : Pt)
    (hc : c ∈ constraints)
    (ha : positionedById c.a = some s)
    (hb : positionedById c.b = some t) :
    emitOverlay c s t ∈ computeOverlay constraints positionedById ∧
    (emitOverlay c s t).curve.length = 3 ∧
    (emitOverlay c s t).curve.head? = some s ∧
    (emitOverlay c s t).curve.getLast? = some t ∧
    midControl (emitOverlay c s t) =
      ⟨(s.x + t.x) / 2, (s.y + t.y) / 2 - max 80 (|s.y - t.y| / 3)⟩ := by
  refine ⟨?_, rfl, rfl, rfl, rfl⟩
  unfold computeOverlay
  exact List.mem_filterMap.mpr ⟨c, hc, by rw [ha, hb]⟩

theorem computeOverlay_curve_three_points_witness :
    emitOverlay cxConstraint ⟨0, 0⟩ ⟨0, 200⟩ ∈ computeOverlay [cxConstraint] cxPos ∧
    (emitOverlay cxConstraint ⟨0, 0⟩ ⟨0, 200⟩).curve.length = 3 ∧
    (emitOverlay cxConstraint ⟨0, 0⟩ ⟨0, 200⟩).curve.head? = some ⟨0, 0⟩ ∧
    (emitOverlay cxConstraint ⟨0, 0⟩ ⟨0, 200⟩).curve.getLast? = some ⟨0, 200⟩ ∧
    midControl (emitOverlay cxConstraint ⟨0, 0⟩ ⟨0, 200⟩) =
      ⟨((0 : ℚ) + 0) / 2, ((0 : ℚ) + 200) / 2 - max 80 (|(0 : ℚ) - 200| / 3)⟩ :=
  computeOverlay_curve_three_points [cxConstraint] cxPos cxConstraint
    ⟨0, 0⟩ ⟨0, 200⟩ (List.mem_singleton.mpr rfl) rfl rfl

/-! ## Viewport transform theorems -/

/-- C8: `handleAlignCenter` preserves the current scale and changes
only the translation, recomputing it so that the bounding box is
centred in the viewport at that scale: the transform maps the box
centre to the viewport centre. -/
theorem alignCenter_keeps_scale_centers_bbox :
    ∀ (current : Transform) (bbox : BBox) (viewWidth viewHeight : ℚ),
      (alignCenter current bbox viewWidth viewHeight).k = current.k ∧
      applyT (alignCenter current bbox viewWidth viewHeight) (bboxCenter bbox) =
        ⟨viewWidth / 2, viewHeight / 2⟩ := by
  intro current bbox viewWidth viewHeight
  refine ⟨rfl, ?_⟩
  simp only [alignCenter, applyT, bboxCenter, Pt.mk.injEq]
  constructor <;> ring

/-- C9: `handleResetZoom` restores the default (fit) scale and keeps
the content point under the viewport centre fixed; consequently, when
the current transform is the fit transform itself (so the default
scale is the current scale), the reset is a no-op. -/
theorem resetZoom_fixes_center_and_fit_noop :
    ∀ (current : Transform) (defaultScale centerX centerY : ℚ),
      current.k ≠ 0 →
      (resetZoom current defaultScale centerX centerY).k = defaultScale ∧
      applyT (resetZoom current defaultScale centerX centerY)
        ⟨(centerX - current.x) / current.k, (centerY - current.y) / current.k⟩ =
        ⟨centerX, centerY⟩ ∧
      resetZoom current current.k centerX centerY = current := by
  intro current defaultScale centerX centerY hk
  refine ⟨rfl, ?_, ?_⟩
  · simp only [resetZoom, applyT, Pt.mk.injEq]
    constructor <;> ring
  · cases current with
    | mk x y k =>
      simp only [resetZoom, Transform.mk.injEq, and_true]
      constructor <;> field_simp

theorem resetZoom_fixes_center_and_fit_noop_witness :
    (resetZoom ⟨3, 4, 2⟩ 5 10 20).k = 5 ∧
    applyT (resetZoom ⟨3, 4, 2⟩ 5 10 20)
      ⟨((10 : ℚ) - 3) / 2, ((20 : ℚ) - 4) / 2⟩ = ⟨10, 20⟩ ∧
    resetZoom ⟨3, 4, 2⟩ 2 10 20 = ⟨3, 4, 2⟩ :=
  resetZoom_fixes_center_and_fit_noop ⟨3, 4, 2⟩ 5 10 20 (by norm_num)

/-- C2: the initial fit-to-view scale computation has no guard against
a zero-extent bounding box.  On a degenerate box (width = height = 0,
as for a single-node tree) with a 400×500 viewport it divides by zero
and produces `Infinity` — not the finite fallback scale 1 the spec
requires. -/
theorem fitScale_degenerate_bbox_infinite :
    fitScale (.num 400) (.num 500) (.num 0) (.num 0) = .posInf ∧
    (fitScale (.num 400) (.num 500) (.num 0) (.num 0)).isFinite = false ∧
    fitScale (.num 400) (.num 500) (.num 0) (.num 0) ≠ .num 1 := by
  refine ⟨?_, ?_, ?_⟩ <;> simp [fitScale, jsDiv, jsMin, jsMul, JsNum.isFinite]

/-! ## Highlight propagator theorems -/

/-- C4: for every node whose id is in the matched set, the closure
`relatedNodes` computed by `applyHighlights` contains the node itself,
all its ancestors (the prefixes of its path) and all its descendants
(the valid extensions of its path); and when the matched set is empty
the closure is empty and the propagator leaves the visual state
untouched. -/
theorem relatedPaths_closure_and_empty_noop :
    ∀ (root : TNode) (matched : List String) (vs : VisualState),
      (∀ p ∈ pathsOf root,
        (idAt root p).any (fun s => matched.contains s) = true →
        (∀ q, q <+: p → q ∈ relatedPaths root matched) ∧
        (∀ q ∈ pathsOf root, p <+: q → q ∈ relatedPaths root matched)) ∧
      (matched = [] → relatedPaths root matched = [] ∧
        applyHighlights root matched vs = vs) := by
  intro root matched vs
  constructor
  · intro p hp hm
    constructor
    · intro q hq
      refine List.mem_flatMap.mpr ⟨p, hp, ?_⟩
      rw [if_pos hm]
      exact List.mem_append_left _ ((List.mem_inits q p).mpr hq)
    · intro q hq hpq
      refine List.mem_flatMap.mpr ⟨p, hp, ?_⟩
      rw [if_pos hm]
      refine List.mem_append_right _ (List.mem_filter.mpr ⟨hq, ?_⟩)
      exact List.isPrefixOf_iff_prefix.mpr hpq
  · rintro rfl
    refine ⟨?_, by simp [applyHighlights]⟩
    refine List.eq_nil_iff_forall_not_mem.mpr fun q hq => ?_
    rcases List.mem_flatMap.mp hq with ⟨p, _, hqin⟩
    simp only [List.contains_nil] at hqin
    rw [if_neg (by cases idAt root p <;> simp [Option.any])] at hqin
    simp at hqin

/-! ## pathToRoot theorems -/

theorem lookup_mem_keys {m : ParentMap} {k v : String}
    (h : m.lookup k = some v) : k ∈ m.map Prod.fst := by
  induction m with
  | nil => simp [List.lookup] at h
  | cons a m ih =>
    cases a with
    | mk k' v' =>
      by_cases hk : k = k'
      · simp [hk]
      · have hbeq : (k == k') = false := beq_eq_false_iff_ne.mpr hk
        rw [List.lookup, hbeq] at h
        exact List.mem_cons_of_mem _ (ih h)

theorem traceGo_subset_keys (m : ParentMap) :
    ∀ (fuel : Nat) (cur x : String), x ∈ traceGo m fuel cur →
      x ∈ m.map Prod.fst := by
  intro fuel
  induction fuel with
  | zero => intro cur x hx; simp [traceGo] at hx
  | succ n ih =>
    intro cur x hx
    rw [traceGo] at hx
    by_cases hs : stepOkB m cur
    · rw [if_pos hs] at hx
      rcases List.mem_cons.mp hx with rfl | hx
      · obtain ⟨_, h2⟩ : x.isEmpty = false ∧ (m.lookup x).isSome = true := by
          simpa [stepOkB] using hs
        obtain ⟨v, hv⟩ := Option.isSome_iff_exists.mp h2
        exact lookup_mem_keys hv
      · exact ih _ _ hx
    · rw [if_neg hs] at hx
      simp at hx

theorem chainTrace_length_lt {m : ParentMap} {targetId : String}
    (h : (chainTrace m targetId).Nodup) :
    (chainTrace m targetId).length < m.length + 1 := by
  have hsub : chainTrace m targetId ⊆ m.map Prod.fst :=
    fun x hx => traceGo_subset_keys m _ targetId x hx
  have hle := (h.subperm hsub).length_le
  rw [List.length_map] at hle
  omega

theorem loopGo_terminates (m : ParentMap) :
    ∀ (fuel : Nat) (cur : String) (path : List String),
      (traceGo m fuel cur).length < fuel →
      ∃ p, loopGo m fuel cur path = some p := by
  intro fuel
  induction fuel with
  | zero => intro cur path h; omega
  | succ n ih =>
    intro cur path h
    by_cases hs : stepOkB m cur
    · rw [traceGo, if_pos hs] at h
      rw [loopGo, if_pos hs]
      exact ih _ _ (by simpa using h)
    · rw [loopGo, if_neg hs]
      exact ⟨_, rfl⟩

theorem loopGo_spec (m : ParentMap) :
    ∀ (fuel : Nat) (cur : String) (path p : List String),
      loopGo m fuel cur path = some p →
      List.Chain' (fun anc child => m.lookup child = some anc) path →
      (∀ h, path.head? = some h → m.lookup h = some cur) →
      List.Chain' (fun anc child => m.lookup child = some anc) p ∧
      (∀ h, p.head? = some h → m.lookup h = none ∨ m.lookup h = some "") ∧
      p.getLast? = (if path.isEmpty then
        (if cur.isEmpty then none else some cur) else path.getLast?) := by
  intro fuel
  induction fuel with
  | zero => intro cur path p h; simp [loopGo] at h
  | succ n ih =>
    intro cur path p hloop hchain hconn
    rw [loopGo] at hloop
    by_cases hs : stepOkB m cur
    · rw [if_pos hs] at hloop
      obtain ⟨hcur, h2⟩ : cur.isEmpty = false ∧ (m.lookup cur).isSome = true := by
        simpa [stepOkB] using hs
      obtain ⟨v, hv⟩ := Option.isSome_iff_exists.mp h2
      have hchain' : List.Chain' (fun anc child => m.lookup child = some anc)
          (cur :: path) :=
        List.chain'_cons'.mpr ⟨fun y hy => hconn y hy, hchain⟩
      have hconn' : ∀ h, (cur :: path).head? = some h →
          m.lookup h = some (pmGet m cur) := by
        intro h hh
        injection hh with hh
        subst hh
        simp [pmGet, hv]
      obtain ⟨hc, hh, hl⟩ := ih (pmGet m cur) (cur :: path) p hloop hchain' hconn'
      refine ⟨hc, hh, ?_⟩
      rw [hl]
      cases path with
      | nil => simp [hcur]
      | cons a l => simp [List.getLast?_cons_cons]
    · rw [if_neg hs] at hloop
      injection hloop with hp
      by_cases hce : cur.isEmpty
      · rw [if_pos hce] at hp
        subst hp
        refine ⟨hchain, ?_, ?_⟩
        · intro h hh
          right
          have := hconn h hh
          rwa [(String.isEmpty_iff cur).mp hce] at this
        · cases path <;> simp [hce]
      · rw [if_neg hce] at hp
        subst hp
        have hce' : cur.isEmpty = false := by simpa using hce
        have hlook : m.lookup cur = none := by
          cases hsome : m.lookup cur with
          | none => rfl
          | some v => exact absurd (by simp [stepOkB, hsome, hce']) hs
        refine ⟨?_, ?_, ?_⟩
        · exact List.chain'_cons'.mpr ⟨fun y hy => hconn y hy, hchain⟩
        · intro h hh
          injection hh with hh
          subst hh
          exact Or.inl hlook
        · cases path with
          | nil => simp [hce]
          | cons a l => simp [List.getLast?_cons_cons]

/-- C10: when the chain of parent pointers starting from the target is
acyclic (the loop's trace repeats no key) and the target id is
non-empty (ids are non-empty by the data model), `pathToRoot`
terminates — the fuel `parentMap.size + 1` of the embedding suffices —
and returns the ancestor chain ordered root-first: the target is the
last element, each element is the looked-up parent of its successor,
and the first element is a root (it has no parent entry, or a falsy
one). -/
theorem pathToRoot_terminates_root_first
    (targetId : String) (m : ParentMap)
    (hT : targetId ≠ "")
    (hA : (chainTrace m targetId).Nodup) :
    ∃ p, pathToRoot targetId m = some p ∧ p ≠ [] ∧
      p.getLast? = some targetId ∧
      List.Chain' (fun anc child => m.lookup child = some anc) p ∧
      (∀ h, p.head? = some h → m.lookup h = none ∨ m.lookup h = some "") := by
  obtain ⟨p, hp⟩ :=
    loopGo_terminates m (m.length + 1) targetId [] (chainTrace_length_lt hA)
  obtain ⟨hchain, hhead, hlast⟩ :=
    loopGo_spec m (m.length + 1) targetId [] p hp List.chain'_nil (by simp)
  have hTe : targetId.isEmpty = false := by
    cases h : targetId.isEmpty with
    | false => rfl
    | true => exact absurd ((String.isEmpty_iff targetId).mp h) hT
  rw [List.isEmpty_nil, if_pos rfl, hTe] at hlast
  simp only [Bool.false_eq_true, if_false] at hlast
  refine ⟨p, hp, ?_, hlast, hchain, hhead⟩
  intro hnil
  rw [hnil] at hlast
  simp at hlast

theorem pathToRoot_terminates_root_first_witness :
    ∃ p, pathToRoot "a" [("a", "r")] = some p ∧ p ≠ [] ∧
      p.getLast? = some "a" ∧
      List.Chain' (fun anc child => List.lookup child [("a", "r")] = some anc) p ∧
      (∀ h, p.head? = some h →
        List.lookup h [("a", "r")] = none ∨ List.lookup h [("a", "r")] = some "") :=
  pathToRoot_terminates_root_first "a" [("a", "r")] (by decide) (by decide)

end FMV
